import Mathlib

/-!
# Verification of the pebble memtable (`mem_table.go`)

Shallow embedding of `memTable` and `memTableIter` from `src/mem_table.go`,
together with a model of the collaborators the file delegates to: the
internal-key codec/ordering of the `db` package and the arena-backed
concurrent ordered map (`arenaskl.Skiplist`).  Those collaborators are not
part of the source tree, so they are modelled from the specification
(sections 3 and 6 of the design document): byte sequences are `List Nat`,
the internal-key order sorts by user key ascending, then sequence number
descending, then kind descending, and the ordered map is a sorted list of
entries with a monotone size counter over a fixed-capacity arena.
-/

/-- A byte sequence (user key or value). -/
abbrev Bytes := List Nat

/-- Modelled from the spec (§3): an internal key is the triple
`(userKey, sequenceNumber, kind)`.  The kind occupies a single byte in the
serialized form, hence it is reduced mod 256 wherever it is compared or
decoded. -/
structure InternalKey where
  userKey : Bytes
  seqNum : Nat
  kind : Nat
  deriving DecidableEq, Repr, Inhabited

/-- Modelled from the spec: the `Delete` kind (a tombstone). -/
def kindDelete : Nat := 0

/-- Modelled from the spec: the `Set` kind. -/
def kindSet : Nat := 1

/-- Modelled from the spec: the maximal kind, used in probe keys so that the
probe sorts before every stored version with the same user key and sequence
number. -/
def kindMax : Nat := 255

/-- Three-way comparison of naturals. -/
def cmpNat (a b : Nat) : Ordering :=
  if a < b then .lt else if b < a then .gt else .eq

/-- Modelled from the spec (§6, key comparer): lexicographic byte-wise
comparison of user keys (the default comparer, `bytes.Compare`). -/
def cmpBytes : Bytes → Bytes → Ordering
  | [], [] => .eq
  | [], _ :: _ => .lt
  | _ :: _, [] => .gt
  | a :: as, b :: bs =>
    if a < b then .lt else if b < a then .gt else cmpBytes as bs

/-- Modelled from the spec (§3): the version part of the internal-key order
— sequence number descending, then kind descending (the fixed tie-break);
the kind is a single serialized byte. -/
def cmpVer (a b : InternalKey) : Ordering :=
  match cmpNat b.seqNum a.seqNum with
  | .eq => cmpNat (b.kind % 256) (a.kind % 256)
  | o => o

/-- Modelled from the spec (§3): total order on internal keys — user key
ascending, then sequence number descending, then kind descending (the fixed
tie-break). -/
def ikCmp (a b : InternalKey) : Ordering :=
  match cmpBytes a.userKey b.userKey with
  | .eq => cmpVer a b
  | o => o

/-- `a` is strictly below `b` in the internal-key order (Bool form). -/
def ikLtB (a b : InternalKey) : Bool := ikCmp a b == .lt

/-- `a` is at or below `b` in the internal-key order (Bool form). -/
def ikLeB (a b : InternalKey) : Bool := ikCmp a b != .gt

/-- A stored entry: internal key plus value. -/
abbrev Entry := InternalKey × Bytes

/-- Modelled from the spec (§6): the error taxonomy of the component —
`errNotFound` from `Get`, `errArenaFull` from the ordered map's `Add`. -/
inductive DbError where
  | errNotFound
  | errArenaFull
  deriving DecidableEq, Repr

/-- Modelled from the spec (§6): the concurrent ordered map (arena-backed
skip list), abstracted to its sequential contract: a list of entries kept
sorted by the internal-key order, a current byte footprint, and the fixed
arena capacity. -/
structure Skiplist where
  entries : List Entry
  size : Nat
  cap : Nat
  deriving DecidableEq, Repr

/-- Modelled from the spec (§6, glossary "arena"): the arena bytes consumed
by one inserted entry — key bytes, value bytes, plus per-node overhead
(always positive). -/
def entryCost (k : InternalKey) (v : Bytes) : Nat :=
  k.userKey.length + v.length + 9

/-- Insert an entry into a sorted entry list, before the first entry that is
at or above it. -/
def insertEntry (k : InternalKey) (v : Bytes) : List Entry → List Entry
  | [] => [(k, v)]
  | e :: rest =>
    if ikLtB e.1 k then e :: insertEntry k v rest else (k, v) :: e :: rest

/-- Modelled from the spec (§6): `Add(rawKeyBytes, value) →
success | capacityExhausted`.  Fails exactly when the arena cannot satisfy
the allocation; otherwise links the new entry at its ordered position and
grows the footprint. -/
def Skiplist.add (s : Skiplist) (k : InternalKey) (v : Bytes) :
    Except DbError Skiplist :=
  if s.cap < s.size + entryCost k v then .error .errArenaFull
  else .ok { s with entries := insertEntry k v s.entries,
                    size := s.size + entryCost k v }

/-- Modelled from the spec (§6): `Size()` — the map's current byte
footprint. -/
def Skiplist.sizeOf (s : Skiplist) : Nat := s.size

/-- Modelled from the spec: the footprint of the freshly initialized map
(head/tail tower nodes carved from the arena before any entry is added). -/
def sklBaseSize : Nat := 112

/-- The arena capacity fixed in `newMemTable`: `4 << 20` bytes. -/
def arenaCapacity : Nat := 4 * 1024 * 1024

/-- `memTable` from `mem_table.go`: the skip list plus the baseline size
recorded at construction.  (The comparer field is fixed to the default
byte-wise comparer modelled by `cmpBytes`.) -/
structure MemTable where
  skl : Skiplist
  emptySize : Nat
  deriving DecidableEq, Repr

/-- `newMemTable`: a fresh skip list over a 4 MiB arena; the baseline size
is the empty map's footprint. -/
def newMemTable : MemTable :=
  { skl := { entries := [], size := sklBaseSize, cap := arenaCapacity },
    emptySize := sklBaseSize }

/-- `memTableIter` from `mem_table.go`, over the skip list's cursor
(modelled from the spec, §6): position `0` is the head sentinel
(before-first), positions `1..n` are the entries, positions above `n` are
the tail sentinel (exhausted). -/
structure MemTableIter where
  entries : List Entry
  pos : Nat
  deriving DecidableEq, Repr

/-- `memTable.NewIter`: a fresh cursor positioned before the first entry. -/
def MemTable.newIter (m : MemTable) : MemTableIter :=
  { entries := m.skl.entries, pos := 0 }

/-- `memTableIter.Valid`: positioned at a stored entry. -/
def MemTableIter.valid (t : MemTableIter) : Bool :=
  1 ≤ t.pos && t.pos ≤ t.entries.length

/-- `memTableIter.SeekGE`: move to the first entry whose key is ≥ the given
key (to the tail sentinel when none is). -/
def MemTableIter.seekGE (t : MemTableIter) (key : InternalKey) :
    MemTableIter :=
  { t with pos := (t.entries.takeWhile (fun e => ikLtB e.1 key)).length + 1 }

/-- `memTableIter.SeekLE`: move to the last entry whose key is ≤ the given
key (to the head sentinel when none is). -/
def MemTableIter.seekLE (t : MemTableIter) (key : InternalKey) :
    MemTableIter :=
  { t with pos := (t.entries.takeWhile (fun e => ikLeB e.1 key)).length }

/-- `memTableIter.First`. -/
def MemTableIter.first (t : MemTableIter) : MemTableIter :=
  { t with pos := 1 }

/-- `memTableIter.Last`. -/
def MemTableIter.last (t : MemTableIter) : MemTableIter :=
  { t with pos := t.entries.length }

/-- `memTableIter.Next` (state part): advance one entry forward; a no-op
when already at the tail sentinel. -/
def MemTableIter.nextI (t : MemTableIter) : MemTableIter :=
  if t.pos ≤ t.entries.length then { t with pos := t.pos + 1 } else t

/-- `memTableIter.Next` (returned Bool): whether the new position is
valid. -/
def MemTableIter.next (t : MemTableIter) : Bool × MemTableIter :=
  (t.nextI.valid, t.nextI)

/-- `memTableIter.Prev` (state part): move one entry backward; a no-op when
already at the head sentinel. -/
def MemTableIter.prevI (t : MemTableIter) : MemTableIter :=
  if 1 ≤ t.pos then { t with pos := t.pos - 1 } else t

/-- `memTableIter.Prev` (returned Bool). -/
def MemTableIter.prev (t : MemTableIter) : Bool × MemTableIter :=
  (t.prevI.valid, t.prevI)

/-- Modelled from the spec (§3): `db.DecodeInternalKey` — reading the
triple back from its serialized form recovers the kind as a single byte. -/
def decodeKey (k : InternalKey) : InternalKey :=
  { k with kind := k.kind % 256 }

/-- `memTableIter.Key`: the decoded internal key at the current position.
Meaningful only when valid. -/
def MemTableIter.key (t : MemTableIter) : InternalKey :=
  decodeKey (t.entries.getD (t.pos - 1) default).1

/-- `memTableIter.Value`: the stored value at the current position. -/
def MemTableIter.value (t : MemTableIter) : Bytes :=
  (t.entries.getD (t.pos - 1) default).2

/-- `memTable.Get`, translated line by line from `mem_table.go`: create a
cursor, `SeekGE` the probe key, then the three not-found checks. -/
def MemTable.get (m : MemTable) (key : InternalKey) :
    Except DbError Bytes :=
  let it := m.newIter.seekGE key
  if !it.valid then .error .errNotFound
  else
    let ikey := it.key
    if !(cmpBytes key.userKey ikey.userKey == .eq) then .error .errNotFound
    else if ikey.kind == kindDelete then .error .errNotFound
    else .ok it.value

/-- `memTable.Set`: delegate to the skip list's `Add`. -/
def MemTable.set (m : MemTable) (key : InternalKey) (value : Bytes) :
    Except DbError MemTable :=
  (m.skl.add key value).map fun s => { m with skl := s }

/-- `memTable.ApproximateMemoryUsage`: the skip list's size. -/
def MemTable.approximateMemoryUsage (m : MemTable) : Nat :=
  m.skl.sizeOf

/-- `memTable.Empty`: the current footprint equals the baseline recorded at
construction. -/
def MemTable.empty (m : MemTable) : Bool :=
  m.skl.sizeOf == m.emptySize

/-- State-passing form of `Get`, recording that the Go receiver is not
written through: the function returns the memtable alongside the result. -/
def MemTable.getS (m : MemTable) (key : InternalKey) :
    Except DbError Bytes × MemTable :=
  (m.get key, m)

/-- The probe key `(k, s, kindMax)` used by `Get((k, s))` (§4.1). -/
def lookupKey (k : Bytes) (s : Nat) : InternalKey :=
  { userKey := k, seqNum := s, kind := kindMax }

/-- One write step: apply `Set`, keeping the old state when it fails (the
failed write leaves the map untouched). -/
def MemTable.set1 (m : MemTable) (op : Entry) : MemTable :=
  match m.set op.1 op.2 with
  | .ok m' => m'
  | .error _ => m

/-- Apply a sequence of `Set` operations. -/
def applyOps (m : MemTable) (ops : List Entry) : MemTable :=
  ops.foldl MemTable.set1 m

/-- The number of `Set` operations in the sequence that succeed. -/
def successCount (m : MemTable) : List Entry → Nat
  | [] => 0
  | op :: rest =>
    match m.set op.1 op.2 with
    | .ok m' => 1 + successCount m' rest
    | .error _ => successCount m rest

/-- Forward traversal: the internal keys visited from the iterator's current
position by repeated `Next` until `Valid` turns false (`fuel` bounds the
recursion; any fuel past the list length is enough). -/
def iterKeys (t : MemTableIter) : Nat → List InternalKey
  | 0 => []
  | fuel + 1 => if t.valid then t.key :: iterKeys t.nextI fuel else []

/-- The full forward scan of a memtable: `First`, then `Next` to
exhaustion. -/
def scanKeys (m : MemTable) : List InternalKey :=
  iterKeys m.newIter.first (m.skl.entries.length + 1)

/-! ## Order lemmas for the modelled internal-key comparator -/

theorem cmpNat_self (a : Nat) : cmpNat a a = .eq := by
  simp [cmpNat]

theorem cmpNat_eq_iff {a b : Nat} : cmpNat a b = .eq ↔ a = b := by
  unfold cmpNat
  by_cases h1 : a < b
  · simp [h1]; omega
  · by_cases h2 : b < a
    · simp [h1, h2]; omega
    · simp [h1, h2]; omega

theorem cmpNat_lt_iff {a b : Nat} : cmpNat a b = .lt ↔ a < b := by
  unfold cmpNat
  by_cases h1 : a < b
  · simp [h1]
  · by_cases h2 : b < a
    · simp [h1, h2]
    · simp [h1, h2]

theorem cmpNat_gt_iff {a b : Nat} : cmpNat a b = .gt ↔ b < a := by
  unfold cmpNat
  by_cases h1 : a < b
  · simp [h1]; omega
  · by_cases h2 : b < a
    · simp [h1, h2]
    · simp [h1, h2]

theorem cmpBytes_self (a : Bytes) : cmpBytes a a = .eq := by
  induction a with
  | nil => rfl
  | cons x xs ih => simp [cmpBytes, ih]

theorem cmpBytes_eq_iff : ∀ {a b : Bytes}, cmpBytes a b = .eq ↔ a = b := by
  intro a
  induction a with
  | nil => intro b; cases b <;> simp [cmpBytes]
  | cons x xs ih =>
    intro b
    cases b with
    | nil => simp [cmpBytes]
    | cons y ys =>
      unfold cmpBytes
      by_cases h1 : x < y
      · simp [h1]; omega
      · by_cases h2 : y < x
        · simp [h1, h2]; omega
        · have hxy : x = y := by omega
          subst hxy
          simp [h1, h2, ih]

theorem cmpBytes_swap : ∀ (a b : Bytes), cmpBytes b a = (cmpBytes a b).swap := by
  intro a
  induction a with
  | nil => intro b; cases b <;> rfl
  | cons x xs ih =>
    intro b
    cases b with
    | nil => rfl
    | cons y ys =>
      unfold cmpBytes
      by_cases h1 : x < y
      · have h1' : ¬ y < x := by omega
        simp [h1, h1', Ordering.swap]
      · by_cases h2 : y < x
        · simp [h1, h2, Ordering.swap]
        · simp [h1, h2, ih ys]

theorem cmpBytes_lt_trans : ∀ {a b c : Bytes},
    cmpBytes a b = .lt → cmpBytes b c = .lt → cmpBytes a c = .lt := by
  intro a
  induction a with
  | nil =>
    intro b c hab hbc
    cases b with
    | nil => exact absurd hab (by simp [cmpBytes])
    | cons y ys =>
      cases c with
      | nil => exact absurd hbc (by simp [cmpBytes])
      | cons z zs => simp [cmpBytes]
  | cons x xs ih =>
    intro b c hab hbc
    cases b with
    | nil => exact absurd hab (by simp [cmpBytes])
    | cons y ys =>
      cases c with
      | nil => exact absurd hbc (by simp [cmpBytes])
      | cons z zs =>
        unfold cmpBytes at hab hbc ⊢
        by_cases hxy : x < y
        · by_cases hyz : y < z
          · simp [show x < z by omega]
          · by_cases hzy : z < y
            · simp [hyz, hzy] at hbc
            · have : y = z := by omega
              subst this
              simp [hxy]
        · by_cases hyx : y < x
          · simp [hxy, hyx] at hab
          · have hxy' : x = y := by omega
            subst hxy'
            simp [hxy, hyx] at hab
            by_cases hyz : x < z
            · simp [hyz]
            · by_cases hzy : z < x
              · simp [hyz, hzy] at hbc
              · simp [hyz, hzy] at hbc ⊢
                exact ih hab hbc


theorem cmpNat_swap (a b : Nat) : cmpNat b a = (cmpNat a b).swap := by
  unfold cmpNat
  by_cases h1 : a < b
  · simp [h1, show ¬ b < a by omega, Ordering.swap]
  · by_cases h2 : b < a
    · simp [h1, h2, Ordering.swap]
    · simp [h1, h2, Ordering.swap]

theorem ikCmp_lt_iff {a b : InternalKey} :
    ikCmp a b = .lt ↔
      cmpBytes a.userKey b.userKey = .lt ∨
        (cmpBytes a.userKey b.userKey = .eq ∧
          (b.seqNum < a.seqNum ∨
            (b.seqNum = a.seqNum ∧ b.kind % 256 < a.kind % 256))) := by
  unfold ikCmp cmpVer
  rcases hu : cmpBytes a.userKey b.userKey with _ | _ | _ <;>
    rcases hs : cmpNat b.seqNum a.seqNum with _ | _ | _ <;>
      rcases hk : cmpNat (b.kind % 256) (a.kind % 256) with _ | _ | _ <;>
        simp_all [cmpNat_lt_iff, cmpNat_eq_iff, cmpNat_gt_iff] <;> omega

theorem ikCmp_eq_iff {a b : InternalKey} :
    ikCmp a b = .eq ↔
      cmpBytes a.userKey b.userKey = .eq ∧ a.seqNum = b.seqNum ∧
        a.kind % 256 = b.kind % 256 := by
  unfold ikCmp cmpVer
  rcases hu : cmpBytes a.userKey b.userKey with _ | _ | _ <;>
    rcases hs : cmpNat b.seqNum a.seqNum with _ | _ | _ <;>
      rcases hk : cmpNat (b.kind % 256) (a.kind % 256) with _ | _ | _ <;>
        simp_all [cmpNat_lt_iff, cmpNat_eq_iff, cmpNat_gt_iff] <;> omega

theorem ikCmp_self (a : InternalKey) : ikCmp a a = .eq := by
  unfold ikCmp cmpVer
  simp [cmpBytes_self, cmpNat_self]

theorem ikCmp_swap (a b : InternalKey) : ikCmp b a = (ikCmp a b).swap := by
  unfold ikCmp cmpVer
  rw [cmpBytes_swap a.userKey b.userKey, cmpNat_swap b.seqNum a.seqNum,
    cmpNat_swap (b.kind % 256) (a.kind % 256)]
  rcases cmpBytes a.userKey b.userKey with _ | _ | _ <;>
    rcases cmpNat b.seqNum a.seqNum with _ | _ | _ <;>
      rcases cmpNat (b.kind % 256) (a.kind % 256) with _ | _ | _ <;> rfl

theorem ikCmp_lt_trans {a b c : InternalKey} (hab : ikCmp a b = .lt)
    (hbc : ikCmp b c = .lt) : ikCmp a c = .lt := by
  rw [ikCmp_lt_iff] at hab hbc ⊢
  rcases hab with hab | ⟨hab, hab'⟩ <;> rcases hbc with hbc | ⟨hbc, hbc'⟩
  · exact Or.inl (cmpBytes_lt_trans hab hbc)
  · have h2 := cmpBytes_eq_iff.mp hbc
    rw [← h2]
    exact Or.inl hab
  · have h1 := cmpBytes_eq_iff.mp hab
    rw [h1]
    exact Or.inl hbc
  · have h1 := cmpBytes_eq_iff.mp hab
    have h2 := cmpBytes_eq_iff.mp hbc
    refine Or.inr ⟨?_, ?_⟩
    · rw [h1, h2, cmpBytes_self]
    · omega

theorem ikCmp_congr_left {a b : InternalKey} (h : ikCmp a b = .eq)
    (c : InternalKey) : ikCmp a c = ikCmp b c := by
  obtain ⟨h1, h2, h3⟩ := ikCmp_eq_iff.mp h
  have h1' := cmpBytes_eq_iff.mp h1
  unfold ikCmp cmpVer
  rw [h1', h2, h3]

theorem ikCmp_congr_right {a b c : InternalKey} (h : ikCmp b c = .eq) :
    ikCmp a c = ikCmp a b := by
  obtain ⟨h1, h2, h3⟩ := ikCmp_eq_iff.mp h
  have h1' := cmpBytes_eq_iff.mp h1
  unfold ikCmp cmpVer
  rw [← h1', ← h2, ← h3]

theorem ikLtB_iff {a b : InternalKey} : ikLtB a b = true ↔ ikCmp a b = .lt := by
  unfold ikLtB
  rcases h : ikCmp a b with _ | _ | _ <;> simp [h] <;> decide

theorem ikLeB_iff {a b : InternalKey} :
    ikLeB a b = true ↔ ikCmp a b = .lt ∨ ikCmp a b = .eq := by
  unfold ikLeB
  rcases h : ikCmp a b with _ | _ | _ <;> simp [h] <;> decide

theorem ikLeB_refl (a : InternalKey) : ikLeB a a = true := by
  rw [ikLeB_iff]
  exact Or.inr (ikCmp_self a)

theorem ikLeB_of_not_ikLtB {a b : InternalKey} (h : ikLtB a b = false) :
    ikLeB b a = true := by
  rw [ikLeB_iff, ikCmp_swap a b]
  rcases hc : ikCmp a b with _ | _ | _
  · rw [ikLtB, hc] at h
    exact absurd h (by decide)
  · exact Or.inr rfl
  · exact Or.inl rfl

theorem not_ikLeB_of_ikLtB {a b : InternalKey} (h : ikLtB a b = true) :
    ikLeB b a = false := by
  rw [ikLtB_iff] at h
  unfold ikLeB
  rw [ikCmp_swap a b, h]
  rfl

theorem ikLeB_trans {a b c : InternalKey} (hab : ikLeB a b = true)
    (hbc : ikLeB b c = true) : ikLeB a c = true := by
  rw [ikLeB_iff] at hab hbc ⊢
  rcases hab with hab | hab <;> rcases hbc with hbc | hbc
  · exact Or.inl (ikCmp_lt_trans hab hbc)
  · rw [ikCmp_congr_right hbc]
    exact Or.inl hab
  · rw [ikCmp_congr_left hab]
    exact Or.inl hbc
  · rw [ikCmp_congr_left hab]
    exact Or.inr hbc

theorem ikLtB_of_ikLeB_of_ikLtB {a b c : InternalKey} (hab : ikLeB a b = true)
    (hbc : ikLtB b c = true) : ikLtB a c = true := by
  rw [ikLeB_iff] at hab
  rw [ikLtB_iff] at hbc ⊢
  rcases hab with hab | hab
  · exact ikCmp_lt_trans hab hbc
  · rw [ikCmp_congr_left hab]
    exact hbc

theorem ikLeB_of_ikLtB {a b : InternalKey} (h : ikLtB a b = true) :
    ikLeB a b = true := by
  rw [ikLtB_iff] at h
  rw [ikLeB_iff]
  exact Or.inl h

theorem ikLeB_eq_not_ikLtB (a b : InternalKey) : ikLeB a b = !(ikLtB b a) := by
  unfold ikLeB ikLtB
  rw [ikCmp_swap a b]
  rcases ikCmp a b with _ | _ | _ <;> rfl

/-- The sortedness relation maintained by the modelled ordered map. -/
def entLe (a b : Entry) : Prop := ikLeB a.1 b.1 = true

theorem mem_insertEntry {x : Entry} {k : InternalKey} {v : Bytes} :
    ∀ {l : List Entry}, x ∈ insertEntry k v l ↔ x = (k, v) ∨ x ∈ l := by
  intro l
  induction l with
  | nil => simp [insertEntry]
  | cons e rest ih =>
    unfold insertEntry
    by_cases h : ikLtB e.1 k
    · rw [if_pos h]
      simp only [List.mem_cons, ih]
      tauto
    · rw [if_neg h]
      simp only [List.mem_cons]

theorem pairwise_insertEntry {k : InternalKey} {v : Bytes} :
    ∀ {l : List Entry}, l.Pairwise entLe →
      (insertEntry k v l).Pairwise entLe := by
  intro l
  induction l with
  | nil =>
    intro _
    simp [insertEntry, List.pairwise_singleton]
  | cons e rest ih =>
    intro h
    rw [List.pairwise_cons] at h
    obtain ⟨h1, h2⟩ := h
    unfold insertEntry
    by_cases hlt : ikLtB e.1 k
    · rw [if_pos hlt, List.pairwise_cons]
      refine ⟨?_, ih h2⟩
      intro x hx
      rcases mem_insertEntry.mp hx with rfl | hx
      · exact ikLeB_of_ikLtB hlt
      · exact h1 x hx
    · rw [if_neg hlt, List.pairwise_cons]
      have hke : ikLeB k e.1 = true :=
        ikLeB_of_not_ikLtB (by simpa using hlt)
      refine ⟨?_, ?_⟩
      · intro x hx
        rcases List.mem_cons.mp hx with rfl | hx
        · exact hke
        · exact ikLeB_trans hke (h1 x hx)
      · rw [List.pairwise_cons]
        exact ⟨h1, h2⟩

/-! ## Generic prefix/suffix lemmas for the cursor positioning -/

theorem getD_takeWhile_length {α : Type} (p : α → Bool) (d : α) :
    ∀ l : List α, l.getD (l.takeWhile p).length d = (l.dropWhile p).headD d := by
  intro l
  induction l with
  | nil => rfl
  | cons a l ih =>
    by_cases h : p a
    · rw [List.takeWhile_cons_of_pos h, List.dropWhile_cons_of_pos h]
      simp only [List.length_cons]
      rw [List.getD_cons_succ]
      exact ih
    · rw [List.takeWhile_cons_of_neg h, List.dropWhile_cons_of_neg h]
      rfl

theorem length_takeWhile_add {α : Type} (p : α → Bool) :
    ∀ l : List α, (l.takeWhile p).length + (l.dropWhile p).length = l.length := by
  intro l
  induction l with
  | nil => rfl
  | cons a l ih =>
    by_cases h : p a <;>
      simp [List.takeWhile_cons, List.dropWhile_cons, h]
    omega

theorem headD_dropWhile_false {α : Type} (p : α → Bool) (d : α) :
    ∀ l : List α, l.dropWhile p ≠ [] → p ((l.dropWhile p).headD d) = false := by
  intro l
  induction l with
  | nil => intro h; exact absurd rfl h
  | cons a l ih =>
    intro h
    by_cases hp : p a
    · rw [List.dropWhile_cons_of_pos hp] at h ⊢
      exact ih h
    · rw [List.dropWhile_cons_of_neg hp]
      simpa using hp

theorem find?_eq_head?_dropWhile {α : Type} (p : α → Bool) :
    ∀ l : List α, l.find? (fun a => !(p a)) = (l.dropWhile p).head? := by
  intro l
  induction l with
  | nil => rfl
  | cons a l ih =>
    by_cases hp : p a
    · have h1 : (!p a) = false := by simp [hp]
      simp only [List.find?, h1]
      rw [List.dropWhile_cons_of_pos hp]
      exact ih
    · have h1 : (!p a) = true := by simp [hp]
      simp only [List.find?, h1]
      rw [List.dropWhile_cons_of_neg hp]
      rfl

/-! ## Behaviour of `Set` and of operation sequences -/

theorem entryCost_pos (k : InternalKey) (v : Bytes) : 0 < entryCost k v := by
  unfold entryCost
  omega

theorem set_ok_iff {m : MemTable} {k : InternalKey} {v : Bytes}
    {m' : MemTable} :
    m.set k v = .ok m' ↔
      m.skl.size + entryCost k v ≤ m.skl.cap ∧
        m' = { m with skl := { m.skl with
                 entries := insertEntry k v m.skl.entries,
                 size := m.skl.size + entryCost k v } } := by
  unfold MemTable.set Skiplist.add
  by_cases h : m.skl.cap < m.skl.size + entryCost k v
  · rw [if_pos h]
    simp [Except.map]
    omega
  · rw [if_neg h]
    simp [Except.map]
    constructor
    · intro h'
      exact ⟨by omega, h'.symm⟩
    · rintro ⟨_, h'⟩
      exact h'.symm

theorem set_error_iff {m : MemTable} {k : InternalKey} {v : Bytes}
    {e : DbError} :
    m.set k v = .error e ↔
      e = .errArenaFull ∧ m.skl.cap < m.skl.size + entryCost k v := by
  unfold MemTable.set Skiplist.add
  by_cases h : m.skl.cap < m.skl.size + entryCost k v
  · rw [if_pos h]
    simp [Except.map, h]
    constructor
    · intro h'
      exact h'.symm
    · intro h'
      exact h'.symm
  · rw [if_neg h]
    simp [Except.map, h]

theorem set1_size_le (m : MemTable) (op : Entry) :
    m.skl.size ≤ (m.set1 op).skl.size := by
  unfold MemTable.set1
  rcases h : m.set op.1 op.2 with e | m'
  · exact Nat.le_refl _
  · obtain ⟨_, rfl⟩ := set_ok_iff.mp h
    simp

theorem set1_emptySize (m : MemTable) (op : Entry) :
    (m.set1 op).emptySize = m.emptySize := by
  unfold MemTable.set1
  rcases h : m.set op.1 op.2 with e | m'
  · rfl
  · obtain ⟨_, rfl⟩ := set_ok_iff.mp h
    rfl

theorem applyOps_cons (m : MemTable) (op : Entry) (ops : List Entry) :
    applyOps m (op :: ops) = applyOps (m.set1 op) ops := rfl

theorem applyOps_size_le : ∀ (ops : List Entry) (m : MemTable),
    m.skl.size ≤ (applyOps m ops).skl.size := by
  intro ops
  induction ops with
  | nil => intro m; exact Nat.le_refl _
  | cons op ops ih =>
    intro m
    rw [applyOps_cons]
    exact Nat.le_trans (set1_size_le m op) (ih (m.set1 op))

theorem applyOps_emptySize : ∀ (ops : List Entry) (m : MemTable),
    (applyOps m ops).emptySize = m.emptySize := by
  intro ops
  induction ops with
  | nil => intro m; rfl
  | cons op ops ih =>
    intro m
    rw [applyOps_cons, ih, set1_emptySize]

theorem applyOps_size_dichotomy : ∀ (ops : List Entry) (m : MemTable),
    ((applyOps m ops).skl.size = m.skl.size ∧ successCount m ops = 0) ∨
      (m.skl.size < (applyOps m ops).skl.size ∧ 0 < successCount m ops) := by
  intro ops
  induction ops with
  | nil => intro m; exact Or.inl ⟨rfl, rfl⟩
  | cons op ops ih =>
    intro m
    rw [applyOps_cons]
    rcases h : m.set op.1 op.2 with e | m'
    · have hs1 : m.set1 op = m := by
        unfold MemTable.set1
        rw [h]
      have hc : successCount m (op :: ops) = successCount m ops := by
        simp only [successCount, h]
      rw [hs1, hc]
      exact ih m
    · have hs1 : m.set1 op = m' := by
        unfold MemTable.set1
        rw [h]
      have hc : successCount m (op :: ops) = 1 + successCount m' ops := by
        simp only [successCount, h]
      obtain ⟨_, rfl⟩ := set_ok_iff.mp h
      have hcost := entryCost_pos op.1 op.2
      rw [hs1, hc]
      rcases ih _ with ⟨h1, _⟩ | ⟨h1, _⟩
      · refine Or.inr ⟨?_, by omega⟩
        rw [h1]
        simp
        omega
      · refine Or.inr ⟨?_, by omega⟩
        refine Nat.lt_trans ?_ h1
        simp
        omega

/-! ## `Get` as a search for the first entry at or above the probe key -/

theorem get_eq_find (m : MemTable) (key : InternalKey) :
    m.get key =
      match m.skl.entries.find? (fun e => ikLeB key e.1) with
      | none => Except.error DbError.errNotFound
      | some e =>
        if cmpBytes key.userKey e.1.userKey ≠ .eq then
          Except.error DbError.errNotFound
        else if e.1.kind % 256 = kindDelete then
          Except.error DbError.errNotFound
        else Except.ok e.2 := by
  have hpred : (fun e : Entry => ikLeB key e.1) =
      fun e : Entry => !(ikLtB e.1 key) := by
    funext e
    exact ikLeB_eq_not_ikLtB key e.1
  rw [hpred,
    find?_eq_head?_dropWhile (fun e : Entry => ikLtB e.1 key) m.skl.entries]
  unfold MemTable.get MemTable.newIter MemTableIter.seekGE MemTableIter.valid
    MemTableIter.key MemTableIter.value decodeKey
  rcases hd : m.skl.entries.dropWhile (fun e : Entry => ikLtB e.1 key)
      with _ | ⟨e0, r⟩
  · have hlen := length_takeWhile_add
      (fun e : Entry => ikLtB e.1 key) m.skl.entries
    rw [hd] at hlen
    simp only [List.length_nil, Nat.add_zero] at hlen
    have hvalid : ¬ ((m.skl.entries.takeWhile
        (fun e : Entry => ikLtB e.1 key)).length + 1 ≤
          m.skl.entries.length) := by omega
    simp [hvalid]
  · have hlen := length_takeWhile_add
      (fun e : Entry => ikLtB e.1 key) m.skl.entries
    rw [hd] at hlen
    simp only [List.length_cons] at hlen
    have hvalid : (m.skl.entries.takeWhile
        (fun e : Entry => ikLtB e.1 key)).length + 1 ≤
          m.skl.entries.length := by omega
    have hgd := getD_takeWhile_length
      (fun e : Entry => ikLtB e.1 key) (default : Entry) m.skl.entries
    rw [hd] at hgd
    simp only [List.headD_cons] at hgd
    simp only [hvalid, hgd, List.head?_cons, Nat.add_sub_cancel,
      decide_eq_true_eq, if_true, Bool.and_self, Bool.not_true,
      Bool.false_eq_true, if_false, Nat.le_refl, Nat.le_add_left]
    rcases hq : cmpBytes key.userKey e0.1.userKey with _ | _ | _ <;>
      by_cases hc2 : e0.1.kind % 256 = 0 <;>
        simp [hq, hc2, kindDelete] <;>
          decide

/-! ## Sortedness of every reachable memtable state -/

theorem set1_pairwise (m : MemTable) (op : Entry)
    (h : m.skl.entries.Pairwise entLe) :
    (m.set1 op).skl.entries.Pairwise entLe := by
  unfold MemTable.set1
  rcases hs : m.set op.1 op.2 with e | m'
  · exact h
  · obtain ⟨_, rfl⟩ := set_ok_iff.mp hs
    exact pairwise_insertEntry h

theorem applyOps_pairwise : ∀ (ops : List Entry) (m : MemTable),
    m.skl.entries.Pairwise entLe →
      (applyOps m ops).skl.entries.Pairwise entLe := by
  intro ops
  induction ops with
  | nil => intro m h; exact h
  | cons op ops ih =>
    intro m h
    rw [applyOps_cons]
    exact ih _ (set1_pairwise m op h)

theorem reachable_pairwise (ops : List Entry) :
    (applyOps newMemTable ops).skl.entries.Pairwise entLe :=
  applyOps_pairwise ops newMemTable (by simp [newMemTable])

/-! ## The forward scan visits exactly the stored entries, in order -/

theorem iterKeys_drop : ∀ (fuel : Nat) (l : List Entry) (pos : Nat),
    1 ≤ pos → l.length + 1 ≤ pos + fuel →
      iterKeys ⟨l, pos⟩ fuel =
        (l.drop (pos - 1)).map (fun e => decodeKey e.1) := by
  intro fuel
  induction fuel with
  | zero =>
    intro l pos h1 h2
    rw [List.drop_eq_nil_of_le (by omega)]
    rfl
  | succ fuel ih =>
    intro l pos h1 h2
    unfold iterKeys
    by_cases hv : pos ≤ l.length
    · have hvalid : MemTableIter.valid ⟨l, pos⟩ = true := by
        unfold MemTableIter.valid
        simp
        omega
      have hlt : pos - 1 < l.length := by omega
      rw [hvalid, if_pos rfl]
      have hnext : MemTableIter.nextI ⟨l, pos⟩ = ⟨l, pos + 1⟩ := by
        unfold MemTableIter.nextI
        rw [if_pos hv]
      have hkey : MemTableIter.key ⟨l, pos⟩ = decodeKey (l[pos - 1]).1 := by
        unfold MemTableIter.key
        rw [List.getD_eq_getElem (l := l) (d := default) hlt]
      rw [hnext, hkey, ih l (pos + 1) (by omega) (by omega),
        List.drop_eq_getElem_cons hlt, List.map_cons]
      simp
      congr 1
      omega
    · have hvalid : MemTableIter.valid ⟨l, pos⟩ = false := by
        unfold MemTableIter.valid
        simp
        omega
      rw [hvalid]
      rw [List.drop_eq_nil_of_le (by omega)]
      rfl

theorem scanKeys_eq (m : MemTable) :
    scanKeys m = m.skl.entries.map (fun e => decodeKey e.1) := by
  unfold scanKeys MemTable.newIter MemTableIter.first
  rw [iterKeys_drop (m.skl.entries.length + 1) m.skl.entries 1 (by omega)
    (by omega)]
  simp

/-- `ikLeB` seen through user key and sequence number: the user keys are
non-decreasing, and on equal user keys the sequence numbers are
non-increasing. -/
theorem ikLeB_userSeq {a b : InternalKey} (h : ikLeB a b = true) :
    cmpBytes a.userKey b.userKey ≠ .gt ∧
      (a.userKey = b.userKey → b.seqNum ≤ a.seqNum) := by
  rw [ikLeB_iff] at h
  rcases h with h | h
  · rw [ikCmp_lt_iff] at h
    rcases h with h | ⟨h1, h2⟩
    · constructor
      · rw [h]
        decide
      · intro he
        rw [he, cmpBytes_self] at h
        exact absurd h (by decide)
    · constructor
      · rw [h1]
        decide
      · intro _
        omega
  · rw [ikCmp_eq_iff] at h
    obtain ⟨h1, h2, _⟩ := h
    constructor
    · rw [h1]
      decide
    · intro _
      omega

theorem ikLtB_eq_false_iff {a b : InternalKey} :
    ikLtB a b = false ↔ ikCmp a b ≠ .lt := by
  unfold ikLtB
  rcases h : ikCmp a b with _ | _ | _ <;> simp [h] <;> decide

theorem ikLeB_eq_false_iff {a b : InternalKey} :
    ikLeB a b = false ↔ ikCmp a b = .gt := by
  unfold ikLeB
  rcases h : ikCmp a b with _ | _ | _ <;> simp [h] <;> decide

theorem ikCmp_gt_iff_lt {a b : InternalKey} :
    ikCmp a b = .gt ↔ ikCmp b a = .lt := by
  rw [ikCmp_swap b a]
  rcases h : ikCmp b a with _ | _ | _ <;> simp [Ordering.swap]

theorem ikCmp_decode_left (a b : InternalKey) :
    ikCmp (decodeKey a) b = ikCmp a b := by
  unfold decodeKey ikCmp cmpVer
  rw [Nat.mod_mod_of_dvd a.kind (dvd_refl 256)]

theorem ikCmp_decode_right (a b : InternalKey) :
    ikCmp a (decodeKey b) = ikCmp a b := by
  unfold decodeKey ikCmp cmpVer
  rw [Nat.mod_mod_of_dvd b.kind (dvd_refl 256)]

theorem getD_takeWhile_pred {α : Type} (p : α → Bool) (d : α) :
    ∀ (l : List α) (i : Nat), i < (l.takeWhile p).length →
      p (l.getD i d) = true := by
  intro l
  induction l with
  | nil => intro i h; simp [List.takeWhile] at h
  | cons a l ih =>
    intro i h
    by_cases hp : p a
    · rw [List.takeWhile_cons_of_pos hp, List.length_cons] at h
      cases i with
      | zero => simpa using hp
      | succ i =>
        rw [List.getD_cons_succ]
        exact ih i (by omega)
    · rw [List.takeWhile_cons_of_neg hp] at h
      simp at h

/-! ## Claim theorems -/

/-- C1: for every memtable state and probe internal key, `Get` seeks the
first stored entry whose internal key is at or above the probe and returns
NotFound when no such entry exists, when its user key differs from the
probe's, or when its kind is `Delete`; otherwise it returns that entry's
stored value.  `Get` produces a value or NotFound — never any other
error. -/
theorem memTable_get_spec (m : MemTable) (key : InternalKey) :
    (m.get key =
      match m.skl.entries.find? (fun e => ikLeB key e.1) with
      | none => Except.error DbError.errNotFound
      | some e =>
        if cmpBytes key.userKey e.1.userKey ≠ .eq then
          Except.error DbError.errNotFound
        else if e.1.kind % 256 = kindDelete then
          Except.error DbError.errNotFound
        else Except.ok e.2) ∧
    (m.get key = Except.error DbError.errNotFound ∨
      ∃ v, m.get key = Except.ok v) := by
  refine ⟨get_eq_find m key, ?_⟩
  rw [get_eq_find m key]
  rcases hf : m.skl.entries.find? (fun e => ikLeB key e.1) with _ | e <;>
    simp only [hf]
  · simp
  · by_cases h1 : cmpBytes key.userKey e.1.userKey = .eq
    · by_cases h2 : e.1.kind % 256 = kindDelete
      · rw [if_neg (by simp [h1]), if_pos h2]
        exact Or.inl rfl
      · rw [if_neg (by simp [h1]), if_neg h2]
        exact Or.inr ⟨e.2, rfl⟩
    · rw [if_pos h1]
      exact Or.inl rfl

/-- C5: for every reachable memtable state, the forward scan from `First()`
to exhaustion yields user keys in non-decreasing order and, within equal
user keys, sequence numbers in non-increasing order. -/
theorem scan_ordering (ops : List Entry) :
    (scanKeys (applyOps newMemTable ops)).Chain'
      (fun a b => cmpBytes a.userKey b.userKey ≠ .gt ∧
        (a.userKey = b.userKey → b.seqNum ≤ a.seqNum)) := by
  have hp := reachable_pairwise ops
  rw [scanKeys_eq]
  apply List.Pairwise.chain'
  rw [List.pairwise_map]
  refine hp.imp ?_
  intro a b hab
  have h := ikLeB_userSeq (a := a.1) (b := b.1) hab
  simpa [decodeKey] using h

/-- C7: `Set` either succeeds, or fails with the arena's
capacity-exhausted error; capacity exhaustion is the only error condition,
occurring exactly when the arena cannot hold the new entry, and the result
is determined by the current state alone (no internal retry). -/
theorem set_error_taxonomy (m : MemTable) (k : InternalKey) (v : Bytes) :
    (m.set k v = .error .errArenaFull ↔
      m.skl.cap < m.skl.size + entryCost k v) ∧
    (m.set k v = .error .errArenaFull ∨
      m.set k v = .ok { m with skl := { m.skl with
        entries := insertEntry k v m.skl.entries,
        size := m.skl.size + entryCost k v } }) := by
  constructor
  · rw [set_error_iff]
    simp
  · by_cases h : m.skl.cap < m.skl.size + entryCost k v
    · exact Or.inl (set_error_iff.mpr ⟨rfl, h⟩)
    · exact Or.inr (set_ok_iff.mpr ⟨by omega, rfl⟩)

/-- C8: `Empty()` is true exactly when no `Set` has ever succeeded since
construction; in particular it stays false forever after the first
successful `Set`. -/
theorem empty_iff_no_success (ops : List Entry) :
    (applyOps newMemTable ops).empty =
      (successCount newMemTable ops == 0) := by
  have hd := applyOps_size_dichotomy ops newMemTable
  have he := applyOps_emptySize ops newMemTable
  unfold MemTable.empty Skiplist.sizeOf
  rw [he]
  rcases hd with ⟨h1, h2⟩ | ⟨h1, h2⟩
  · rw [h1, h2]
    rfl
  · have h3 : newMemTable.skl.size = newMemTable.emptySize := rfl
    have hL : ((applyOps newMemTable ops).skl.size ==
        newMemTable.emptySize) = false := by
      rw [beq_eq_false_iff_ne]
      omega
    have hR : (successCount newMemTable ops == 0) = false := by
      rw [beq_eq_false_iff_ne]
      omega
    rw [hL, hR]

/-- C9: `ApproximateMemoryUsage()` is monotonically non-decreasing across
any sequence of `Set` operations, including deletes and overwrites. -/
theorem memory_usage_monotone (m : MemTable) (ops : List Entry) :
    m.approximateMemoryUsage ≤ (applyOps m ops).approximateMemoryUsage :=
  applyOps_size_le ops m

/-- C10: `Get` is read-only — it works on a private cursor, and the
memtable it returns alongside the result is the one it was given: entries,
memory usage and emptiness are untouched. -/
theorem get_read_only (m : MemTable) (key : InternalKey) :
    (m.getS key).2 = m ∧
      (m.getS key).2.skl.entries = m.skl.entries ∧
      (m.getS key).2.approximateMemoryUsage = m.approximateMemoryUsage ∧
      (m.getS key).2.empty = m.empty ∧
      (m.getS key).1 = m.get key :=
  ⟨rfl, rfl, rfl, rfl, rfl⟩

/-! ## Probe-key facts used by the point-lookup claims -/

theorem ikLeB_lookup_ge (k : Bytes) {s2 sm : Nat} (kd : Nat) (h : s2 ≤ sm)
    (hkd : kd % 256 < 255) :
    ikLeB (lookupKey k sm) ⟨k, s2, kd⟩ = true := by
  rw [ikLeB_iff]
  left
  rw [ikCmp_lt_iff]
  right
  refine ⟨cmpBytes_self k, ?_⟩
  rcases Nat.lt_or_ge s2 sm with h' | h'
  · exact Or.inl h'
  · have hss : s2 = sm := by omega
    subst hss
    refine Or.inr ⟨rfl, ?_⟩
    simpa [lookupKey, kindMax] using hkd

theorem ikLeB_lookup_skip (k : Bytes) {s ss : Nat} (kd : Nat) (h : s < ss) :
    ikLeB (lookupKey k s) ⟨k, ss, kd⟩ = false := by
  rw [ikLeB_eq_false_iff, ikCmp_gt_iff_lt, ikCmp_lt_iff]
  exact Or.inr ⟨cmpBytes_self k, Or.inl h⟩

theorem ikLtB_older_false (k : Bytes) {s1 s2 : Nat} (kd1 kd2 : Nat)
    (h : s1 < s2) : ikLtB ⟨k, s1, kd1⟩ ⟨k, s2, kd2⟩ = false := by
  rw [ikLtB_eq_false_iff]
  intro hc
  rw [ikCmp_lt_iff] at hc
  dsimp only at hc
  rcases hc with hc | ⟨_, hc⟩
  · rw [cmpBytes_self] at hc
    exact absurd hc (by decide)
  · rcases hc with hc | ⟨hc, _⟩ <;> omega

/-- C4: after `Set((k, s, Set), v)` succeeds on a fresh memtable,
`Get((k, s))` returns `v`. -/
theorem write_then_read (k v : Bytes) (s : Nat) (m' : MemTable)
    (h : newMemTable.set ⟨k, s, kindSet⟩ v = .ok m') :
    m'.get (lookupKey k s) = .ok v := by
  obtain ⟨_, rfl⟩ := set_ok_iff.mp h
  rw [get_eq_find]
  have hle : ikLeB (lookupKey k s) ⟨k, s, kindSet⟩ = true :=
    ikLeB_lookup_ge k kindSet (Nat.le_refl s) (by decide)
  simp only [newMemTable, insertEntry, List.find?, hle]
  simp [lookupKey, cmpBytes_self, kindSet, kindDelete]

/-- C3: after inserting `(k, s1, Set, v1)` and `(k, s2, Set, v2)` with
`s1 < s2` into a fresh memtable, `Get((k, s1))` returns `v1` and
`Get((k, s2))` returns `v2`. -/
theorem version_visibility (k v1 v2 : Bytes) (s1 s2 : Nat) (m1 m2 : MemTable)
    (hs : s1 < s2)
    (h1 : newMemTable.set ⟨k, s1, kindSet⟩ v1 = .ok m1)
    (h2 : m1.set ⟨k, s2, kindSet⟩ v2 = .ok m2) :
    m2.get (lookupKey k s1) = .ok v1 ∧ m2.get (lookupKey k s2) = .ok v2 := by
  obtain ⟨_, rfl⟩ := set_ok_iff.mp h1
  obtain ⟨_, rfl⟩ := set_ok_iff.mp h2
  have hins : ikLtB (⟨k, s1, kindSet⟩ : InternalKey) ⟨k, s2, kindSet⟩ = false :=
    ikLtB_older_false k kindSet kindSet hs
  have hskip : ikLeB (lookupKey k s1) ⟨k, s2, kindSet⟩ = false :=
    ikLeB_lookup_skip k kindSet hs
  have hhit1 : ikLeB (lookupKey k s1) ⟨k, s1, kindSet⟩ = true :=
    ikLeB_lookup_ge k kindSet (Nat.le_refl s1) (by decide)
  have hhit2 : ikLeB (lookupKey k s2) ⟨k, s2, kindSet⟩ = true :=
    ikLeB_lookup_ge k kindSet (Nat.le_refl s2) (by decide)
  constructor
  · rw [get_eq_find]
    simp only [newMemTable, insertEntry, hins, Bool.false_eq_true, if_false,
      List.find?, hskip, hhit1]
    simp [lookupKey, cmpBytes_self, kindSet, kindDelete]
  · rw [get_eq_find]
    simp only [newMemTable, insertEntry, hins, Bool.false_eq_true, if_false,
      List.find?, hhit2]
    simp [lookupKey, cmpBytes_self, kindSet, kindDelete]

/-- C2: after `Set((k, s1, Set), v)` then `Set((k, s2, Delete), _)` with
`s1 < s2` on a fresh memtable, `Get((k, s2))` returns NotFound, and
`Get((k, s_max))` returns NotFound for every `s_max ≥ s2`. -/
theorem tombstone_shadowing (k v vd : Bytes) (s1 s2 smax : Nat)
    (m1 m2 : MemTable) (hs : s1 < s2) (hmax : s2 ≤ smax)
    (h1 : newMemTable.set ⟨k, s1, kindSet⟩ v = .ok m1)
    (h2 : m1.set ⟨k, s2, kindDelete⟩ vd = .ok m2) :
    m2.get (lookupKey k s2) = .error .errNotFound ∧
      m2.get (lookupKey k smax) = .error .errNotFound := by
  obtain ⟨_, rfl⟩ := set_ok_iff.mp h1
  obtain ⟨_, rfl⟩ := set_ok_iff.mp h2
  have hins : ikLtB (⟨k, s1, kindSet⟩ : InternalKey) ⟨k, s2, kindDelete⟩
      = false := ikLtB_older_false k kindSet kindDelete hs
  have hgen : ∀ sm, s2 ≤ sm →
      MemTable.get { newMemTable with skl := { newMemTable.skl with
          entries := insertEntry ⟨k, s2, kindDelete⟩ vd
            (insertEntry ⟨k, s1, kindSet⟩ v newMemTable.skl.entries),
          size := (newMemTable.skl.size + entryCost ⟨k, s1, kindSet⟩ v)
            + entryCost ⟨k, s2, kindDelete⟩ vd } }
        (lookupKey k sm) = .error .errNotFound := by
    intro sm hm
    have hhit : ikLeB (lookupKey k sm) ⟨k, s2, kindDelete⟩ = true :=
      ikLeB_lookup_ge k kindDelete hm (by decide)
    rw [get_eq_find]
    simp only [newMemTable, insertEntry, hins, Bool.false_eq_true, if_false,
      List.find?, hhit]
    simp [lookupKey, cmpBytes_self, kindDelete]
  exact ⟨hgen s2 (Nat.le_refl s2), hgen smax hmax⟩

theorem ikLtB_decode_left (a b : InternalKey) :
    ikLtB (decodeKey a) b = ikLtB a b := by
  unfold ikLtB
  rw [ikCmp_decode_left]

theorem ikLeB_decode_right (a b : InternalKey) :
    ikLeB a (decodeKey b) = ikLeB a b := by
  unfold ikLeB
  rw [ikCmp_decode_right]

/-- C6: from any valid position, `Next()` then `Prev()` returns the
iterator to where it was; and `SeekGE(k)` followed by `Prev()`, when the
resulting position is valid, rests on the last stored entry strictly below
`k` — it is below `k`, and every stored entry below `k` is at or below
it. -/
theorem iterator_symmetry (ops : List Entry) (key : InternalKey)
    (it : MemTableIter) (hv : it.valid = true)
    (hv2 : (((applyOps newMemTable ops).newIter.seekGE key).prevI).valid
      = true) :
    it.nextI.prevI = it ∧
      ikLtB (((applyOps newMemTable ops).newIter.seekGE key).prevI).key key
        = true ∧
      ∀ e ∈ (applyOps newMemTable ops).skl.entries, ikLtB e.1 key = true →
        ikLeB e.1
          ((((applyOps newMemTable ops).newIter.seekGE key).prevI).key)
          = true := by
  have hsorted := reachable_pairwise ops
  obtain ⟨es, p⟩ := it
  unfold MemTableIter.valid at hv
  simp only [Bool.and_eq_true, decide_eq_true_eq] at hv
  obtain ⟨hp1, hp2⟩ := hv
  constructor
  · unfold MemTableIter.nextI MemTableIter.prevI
    simp only
    rw [if_pos hp2]
    simp only
    rw [if_pos (by omega)]
    simp
  · set m := applyOps newMemTable ops with hm
    set l := m.skl.entries with hl
    set f : Entry → Bool := fun e => ikLtB e.1 key with hf
    have hitp : (m.newIter.seekGE key).prevI
        = ⟨l, (l.takeWhile f).length⟩ := by
      unfold MemTable.newIter MemTableIter.seekGE MemTableIter.prevI
      simp only
      rw [if_pos (by omega)]
      simp
    rw [hitp] at hv2 ⊢
    unfold MemTableIter.valid at hv2
    simp only [Bool.and_eq_true, decide_eq_true_eq] at hv2
    obtain ⟨hq1, hq2⟩ := hv2
    have hidx : (l.takeWhile f).length - 1 < (l.takeWhile f).length := by
      omega
    have hkeyp : (⟨l, (l.takeWhile f).length⟩ : MemTableIter).key
        = decodeKey (l.getD ((l.takeWhile f).length - 1) default).1 := rfl
    have hpred : f (l.getD ((l.takeWhile f).length - 1) default) = true :=
      getD_takeWhile_pred f default l _ hidx
    have hlt1 : (l.takeWhile f).length - 1 < l.length := by omega
    have hgetd : l.getD ((l.takeWhile f).length - 1) default
        = l.get ⟨(l.takeWhile f).length - 1, hlt1⟩ := by
      rw [List.getD_eq_getElem l default hlt1]
      simp
    constructor
    · rw [hkeyp, ikLtB_decode_left]
      exact hpred
    · intro e he hlt
      rw [hkeyp, ikLeB_decode_right]
      obtain ⟨j, hj, rfl⟩ := List.mem_iff_getElem.mp he
      rw [hgetd]
      by_cases hji : j < (l.takeWhile f).length
      · rcases Nat.lt_or_ge j ((l.takeWhile f).length - 1) with hj2 | hj2
        · have := List.pairwise_iff_getElem.mp hsorted j
            ((l.takeWhile f).length - 1) hj hlt1 hj2
          simpa [entLe] using this
        · have hj3 : j = (l.takeWhile f).length - 1 := by omega
          subst hj3
          simp only [List.get_eq_getElem]
          exact ikLeB_refl _
      · exfalso
        have hq3 : (l.takeWhile f).length < l.length := by omega
        have hbound : f (l.getD (l.takeWhile f).length default) = false := by
          have h1 := getD_takeWhile_length f (default : Entry) l
          have h2 := length_takeWhile_add f l
          have h3 : l.dropWhile f ≠ [] := by
            intro hnil
            rw [hnil] at h2
            simp at h2
            omega
          rw [h1]
          exact headD_dropWhile_false f default l h3
        rw [List.getD_eq_getElem l default hq3] at hbound
        have hbound' : ikLtB (l[(l.takeWhile f).length]).1 key = false := by
          simpa [hf] using hbound
        rcases Nat.eq_or_lt_of_le (Nat.ge_of_not_lt hji) with hj4 | hj4
        · subst hj4
          exact absurd (hlt.symm.trans hbound') (by decide)
        · have hpair := List.pairwise_iff_getElem.mp hsorted
            ((l.takeWhile f).length) j hq3 hj hj4
          have hup : ikLtB (l[(l.takeWhile f).length]).1 key = true :=
            ikLtB_of_ikLeB_of_ikLtB (by simpa [entLe] using hpair) hlt
          exact absurd (hup.symm.trans hbound') (by decide)

/-! ## Concrete witness states -/

/-- A fresh memtable after `Set(([1], 5, Set), [7])`. -/
def mtW1 : MemTable :=
  { skl := { entries := [(⟨[1], 5, kindSet⟩, [7])], size := 123,
             cap := arenaCapacity }, emptySize := sklBaseSize }

/-- `mtW1` after `Set(([1], 6, Set), [8])`. -/
def mtW2 : MemTable :=
  { skl := { entries := [(⟨[1], 6, kindSet⟩, [8]), (⟨[1], 5, kindSet⟩, [7])],
             size := 134, cap := arenaCapacity }, emptySize := sklBaseSize }

/-- `mtW1` after `Set(([1], 6, Delete), [])`. -/
def mtW3 : MemTable :=
  { skl := { entries := [(⟨[1], 6, kindDelete⟩, []), (⟨[1], 5, kindSet⟩, [7])],
             size := 133, cap := arenaCapacity }, emptySize := sklBaseSize }

/-- A two-entry write sequence over two user keys. -/
def opsW : List Entry := [(⟨[1], 5, kindSet⟩, [7]), (⟨[2], 6, kindSet⟩, [8])]

/-- An iterator standing on the single entry of a one-entry memtable. -/
def itW : MemTableIter := ⟨[(⟨[1], 5, kindSet⟩, [7])], 1⟩

/-- Witness for C4 at `k = [1]`, `v = [7]`, `s = 5`. -/
theorem write_then_read_witness :
    newMemTable.set ⟨[1], 5, kindSet⟩ [7] = .ok mtW1 ∧
      mtW1.get (lookupKey [1] 5) = .ok [7] :=
  ⟨by rfl, write_then_read [1] [7] 5 mtW1 (by rfl)⟩

/-- Witness for C3 at `k = [1]`, `s1 = 5`, `s2 = 6`. -/
theorem version_visibility_witness :
    newMemTable.set ⟨[1], 5, kindSet⟩ [7] = .ok mtW1 ∧
      mtW1.set ⟨[1], 6, kindSet⟩ [8] = .ok mtW2 ∧
      mtW2.get (lookupKey [1] 5) = .ok [7] ∧
      mtW2.get (lookupKey [1] 6) = .ok [8] :=
  ⟨by rfl, by rfl,
   (version_visibility [1] [7] [8] 5 6 mtW1 mtW2 (by omega)
     (by rfl) (by rfl)).1,
   (version_visibility [1] [7] [8] 5 6 mtW1 mtW2 (by omega)
     (by rfl) (by rfl)).2⟩

/-- Witness for C2 at `k = [1]`, `s1 = 5`, `s2 = 6`, `s_max = 7`. -/
theorem tombstone_shadowing_witness :
    newMemTable.set ⟨[1], 5, kindSet⟩ [7] = .ok mtW1 ∧
      mtW1.set ⟨[1], 6, kindDelete⟩ [] = .ok mtW3 ∧
      mtW3.get (lookupKey [1] 6) = .error .errNotFound ∧
      mtW3.get (lookupKey [1] 7) = .error .errNotFound :=
  ⟨by rfl, by rfl,
   (tombstone_shadowing [1] [7] [] 5 6 7 mtW1 mtW3 (by omega) (by omega)
     (by rfl) (by rfl)).1,
   (tombstone_shadowing [1] [7] [] 5 6 7 mtW1 mtW3 (by omega) (by omega)
     (by rfl) (by rfl)).2⟩

/-- Witness for C6 on `opsW`, probing above user key `[2]`. -/
theorem iterator_symmetry_witness :
    itW.nextI.prevI = itW ∧
      ikLtB (((applyOps newMemTable opsW).newIter.seekGE
        (lookupKey [2] 100)).prevI).key (lookupKey [2] 100) = true :=
  ⟨(iterator_symmetry opsW (lookupKey [2] 100) itW (by rfl) (by rfl)).1,
   (iterator_symmetry opsW (lookupKey [2] 100) itW (by rfl) (by rfl)).2.1⟩
